import Mathlib

/-!
Shallow embedding of the cards repository (package cards): the Card value
type (card.go) and the group container with its operations (group.go), plus
the PerfectShuffle utility (shuffle.go).  Go slices of cards and booleans
become Lean lists; in-place mutation becomes functions returning the new
group; Go int indices become Int with the same negative-index normalization.
-/

/-- Suit enumeration values, Spades = 1 .. Clubs = 4 (card.go). -/
def Spades : Nat := 1

/-- Hearts suit value. -/
def Hearts : Nat := 2

/-- Diamonds suit value. -/
def Diamonds : Nat := 3

/-- Clubs suit value. -/
def Clubs : Nat := 4

/-- Ace rank value (ranks run Ace = 1 .. King = 13, card.go). -/
def Ace : Nat := 1

/-- King rank value. -/
def King : Nat := 13

/-- A Card is either a standard card (struct card: rank and suit) or a joker
(struct joker), the two implementations of the Card interface in card.go. -/
inductive Card where
  | card (rank : Nat) (suit : Nat) : Card
  | joker : Card
deriving DecidableEq, Repr

/-- Suit method: a standard card returns its suit, a joker returns Suit(0). -/
def Card.Suit : Card → Nat
  | .card _ s => s
  | .joker => 0

/-- Rank method: a standard card returns its rank, a joker returns Rank(0). -/
def Card.Rank : Card → Nat
  | .card r _ => r
  | .joker => 0

/-- Joker method: false on struct card, true on struct joker. -/
def Card.Joker : Card → Bool
  | .card _ _ => false
  | .joker => true

/-- NewCard constructor from card.go. -/
def NewCard (rank : Nat) (suit : Nat) : Card := Card.card rank suit

/-- The group struct from group.go: a slice of cards and a parallel slice of
face-up booleans. -/
structure group where
  cards : List Card
  flipd : List Bool
deriving DecidableEq, Repr

/-- The documented invariant of group: the two parallel slices have equal
length. -/
def ginv (g : group) : Prop := g.flipd.length = g.cards.length

instance (g : group) : Decidable (ginv g) := by unfold ginv; infer_instance

/-- NewGroup: wraps the given cards with an all-false (face-down) direction
slice, as make([]bool, len(cards)) produces. -/
def NewGroup (cards : List Card) : group :=
  { cards := cards, flipd := List.replicate cards.length false }

/-- Go copy of a whole slice into a fresh slice of the same length, as
Cards and FlippedArray do. -/
def listClone : List α → List α
  | [] => []
  | a :: t => a :: listClone t

/-- Go copy(dst[i:], src): overwrite dst starting at offset i with as much
of src as fits, leaving the prefix and any untouched tail intact. -/
def copyAt (dst : List α) (i : Nat) (src : List α) : List α :=
  dst.take i ++ src.take (dst.length - i) ++ dst.drop (i + src.length)

/-- A parallel swap of two positions of a slice, as the Go statement
l[p], l[q] = l[q], l[p] performs (no effect when a position is absent;
in Go that case panics and is outside every claim). -/
def listSwap (l : List α) (p q : Nat) : List α :=
  match l[p]?, l[q]? with
  | some a, some b => (l.set p b).set q a
  | _, _ => l

/-- The descending swap loop for p := cnt-1 down to 0, swapping p with
len-1-p, as in the second loop of flip (group.go) and in Reverse
(shuffle.go).  The first argument is the fixed slice length len used for
the mirror index, the last is the remaining iteration count. -/
def revSwaps (len : Nat) (l : List α) : Nat → List α
  | 0 => l
  | k + 1 => revSwaps len (listSwap l k (len - 1 - k)) k

/-- The first loop of flip: for n := i; n < j; n++ toggles flipd[n].  The
argument n is the index of the head of the remaining list. -/
def toggleFrom (i j : Nat) : Nat → List Bool → List Bool
  | _, [] => []
  | n, b :: t => (if i ≤ n ∧ n < j then !b else b) :: toggleFrom i j (n + 1) t

/-- index method of group: a negative index has the slice length added to
it, other indices pass through (group.go, lines 98-102). -/
def group.index (g : group) (i : Int) : Int :=
  if i < 0 then i + g.cards.length else i

/-- Len method: the number of cards. -/
def group.Len (g : group) : Nat := g.cards.length

/-- Less method of group (sort.Interface): jokers order before non-jokers;
two non-jokers compare by suit, then by rank inside an equal suit.  Out of
range positions read a zero card where Go would panic; every claim stays
in range. -/
def group.Less (g : group) (i j : Int) : Bool :=
  let i := g.index i
  let j := g.index j
  let ci := g.cards.getD i.toNat (Card.card 0 0)
  let cj := g.cards.getD j.toNat (Card.card 0 0)
  if ci.Joker && !cj.Joker then true
  else if !ci.Joker && cj.Joker then false
  else if ci.Suit == cj.Suit then decide (ci.Rank < cj.Rank)
  else decide (ci.Suit < cj.Suit)

/-- Swap method of group: after index normalization, swap the two positions
in both parallel slices. -/
def group.Swap (g : group) (i j : Int) : group :=
  let i := g.index i
  let j := g.index j
  { cards := listSwap g.cards i.toNat j.toNat,
    flipd := listSwap g.flipd i.toNat j.toNat }

/-- Flipped method: the direction bit at a normalized position (false when
absent; Go panics there, outside every claim). -/
def group.Flipped (g : group) (i : Int) : Bool :=
  let i := g.index i
  g.flipd.getD i.toNat false

/-- SetFlipped method: write the direction bit at a normalized position. -/
def group.SetFlipped (g : group) (i : Int) (faceup : Bool) : group :=
  let i := g.index i
  { g with flipd := g.flipd.set i.toNat faceup }

/-- FlippedArray method: a fresh copy of the direction slice. -/
def group.FlippedArray (g : group) : List Bool := listClone g.flipd

/-- FlipEach method: set every direction bit to the given value. -/
def group.FlipEach (g : group) (faceup : Bool) : group :=
  { g with flipd := g.flipd.map (fun _ => faceup) }

/-- The unexported flip of group.go on already normalized indices: toggle
every direction bit in the half-open range, then reverse the cards and the
toggled bits of the range in place by the descending swap loop over the
aliased sub-slices cards[i:j] and flipd[i:j]. -/
def group.flip (g : group) (i j : Nat) : group :=
  let flipd1 := toggleFrom i j 0 g.flipd
  let c := (g.cards.drop i).take (j - i)
  let d := (flipd1.drop i).take (j - i)
  let c2 := revSwaps c.length c (c.length / 2)
  let d2 := revSwaps c.length d (c.length / 2)
  { cards := g.cards.take i ++ c2 ++ g.cards.drop (i + c.length),
    flipd := flipd1.take i ++ d2 ++ flipd1.drop (i + d.length) }

/-- Flip method: normalize both indices, then run flip.  A still negative
normalized index would make Go panic when slicing; the claims only use
ranges that are valid after normalization. -/
def group.Flip (g : group) (i j : Int) : group :=
  let i := g.index i
  let j := g.index j
  g.flip i.toNat j.toNat

/-- FlipAll method: flip over the whole slice. -/
def group.FlipAll (g : group) : group :=
  g.flip 0 g.cards.length

/-- Card method: normalize the index, return nil (none) when it is still
out of range, the card there otherwise. -/
def group.Card (g : group) (i : Int) : Option Card :=
  let i := g.index i
  if i < 0 ∨ (g.cards.length : Int) ≤ i then none
  else g.cards[i.toNat]?

/-- Cards method: a fresh copy of the card slice (the list type is left to
inference because the name Card is shadowed inside the group namespace). -/
def group.Cards (g : group) := listClone g.cards

/-- The unexported drawAt of group.go on already normalized indices.  The
drawn range is copied into a fresh group; the source compacts by copying
the tail over the range, then truncates both slices by the drawn count
(the Go code also zeroes the vacated card cells, which the truncation
discards).  Returns (drawn group, remaining source group). -/
def group.drawAt (g : group) (i j : Nat) : group × group :=
  let n := j - i
  let ngCards := (g.cards.drop i).take n
  let ngFlipd := (g.flipd.drop i).take n
  let cards1 := copyAt g.cards i (g.cards.drop j)
  let flipd1 := copyAt g.flipd i (g.flipd.drop j)
  (⟨ngCards, ngFlipd⟩,
   ⟨cards1.take (g.cards.length - n), flipd1.take (g.flipd.length - n)⟩)

/-- Draw method: clamp n to [0, Len], then draw the top n cards. -/
def group.Draw (g : group) (n : Int) : group × group :=
  let n := if n < 0 then 0 else n
  let n := if (g.cards.length : Int) < n then (g.cards.length : Int) else n
  g.drawAt (g.cards.length - n.toNat) g.cards.length

/-- DrawBottom method: clamp n to [0, Len], then draw the bottom n cards. -/
def group.DrawBottom (g : group) (n : Int) : group × group :=
  let n := if n < 0 then 0 else n
  let n := if (g.cards.length : Int) < n then (g.cards.length : Int) else n
  g.drawAt 0 n.toNat

/-- DrawAt method: normalize both indices, then drawAt.  As with Flip, a
range that is invalid after normalization panics in Go. -/
def group.DrawAt (g : group) (i j : Int) : group × group :=
  let i := g.index i
  let j := g.index j
  g.drawAt i.toNat j.toNat

/-- Insert method: append copies of the cards and directions of the
argument group to the top. -/
def group.Insert (g : group) (ng : group) : group :=
  { cards := g.cards ++ ng.Cards, flipd := g.flipd ++ ng.FlippedArray }

/-- InsertBottom method: fresh slices holding copies of the argument
followed by the receiver. -/
def group.InsertBottom (g : group) (ng : group) : group :=
  { cards := ng.Cards ++ g.cards, flipd := ng.FlippedArray ++ g.flipd }

/-- InsertAt method: normalize the index, clamp it to [0, Len], and splice
copies of the argument in at that position. -/
def group.InsertAt (g : group) (i : Int) (ng : group) : group :=
  let i := g.index i
  let i := if i < 0 then 0
           else if (g.cards.length : Int) < i then (g.cards.length : Int)
           else i
  let k := i.toNat
  { cards := g.cards.take k ++ ng.Cards ++ g.cards.drop k,
    flipd := g.flipd.take k ++ ng.FlippedArray ++ g.flipd.drop k }

/-- NewStandardDeck: a 52 cell slice filled by the nested loop
deck.cards[(suit-1)*13+(rank-1)] = NewCard(rank, suit) for suit 1..4 and
rank 1..13, directions all face-down.  The cells start as Go nil interface
values, modelled by Option, and every cell is set before the map
extracts them. -/
def NewStandardDeck : group :=
  let init : List (Option Card) := List.replicate 52 none
  let filled := (List.range 4).foldl (fun acc s =>
    (List.range 13).foldl (fun acc2 r =>
      acc2.set (s * 13 + r) (some (NewCard (r + 1) (s + 1)))) acc) init
  { cards := filled.map (fun o => o.getD (Card.card 0 0)),
    flipd := List.replicate 52 false }

/-- Cards method with its state effect on the receiver made explicit: the
method body only allocates and copies, so the receiver after the call is
the receiver before it. -/
def group.CardsM (g : group) := (listClone g.cards, g)

/-- FlippedArray method with its state effect on the receiver made
explicit; again the body only reads. -/
def group.FlippedArrayM (g : group) : List Bool × group :=
  (listClone g.flipd, g)

/-- Insert with the post-call state of the argument group threaded
through: the receiver reads the argument only by its Cards and
FlippedArray calls.  Returns (receiver after, argument after). -/
def group.InsertM (g : group) (ng : group) : group × group :=
  let (cs, ng1) := ng.CardsM
  let (fs, ng2) := ng1.FlippedArrayM
  ({ cards := g.cards ++ cs, flipd := g.flipd ++ fs }, ng2)

/-- InsertBottom with the post-call state of the argument threaded
through. -/
def group.InsertBottomM (g : group) (ng : group) : group × group :=
  let (cs, ng1) := ng.CardsM
  let (fs, ng2) := ng1.FlippedArrayM
  ({ cards := cs ++ g.cards, flipd := fs ++ g.flipd }, ng2)

/-- InsertAt with the post-call state of the argument threaded through. -/
def group.InsertAtM (g : group) (i : Int) (ng : group) : group × group :=
  let i := g.index i
  let i := if i < 0 then 0
           else if (g.cards.length : Int) < i then (g.cards.length : Int)
           else i
  let k := i.toNat
  let (cs, ng1) := ng.CardsM
  let (fs, ng2) := ng1.FlippedArrayM
  ({ cards := g.cards.take k ++ cs ++ g.cards.drop k,
     flipd := g.flipd.take k ++ fs ++ g.flipd.drop k }, ng2)

/-- The Fisher-Yates loop of PerfectShuffle (shuffle.go), with the random
draws supplied as a function f giving the sampled value at each loop
index: for i := Len-1; i > 0; i-- the group swaps positions i and f i.
The last argument is the current value of i. -/
def shuffleSwaps (f : Nat → Nat) (g : group) : Nat → group
  | 0 => g
  | i + 1 => shuffleSwaps f (g.Swap (↑(i + 1)) (↑(f (i + 1)))) i

/-- PerfectShuffle with an explicit sample source f in place of the
rejection-free uniform draws from crypto/rand. -/
def PerfectShuffle (f : Nat → Nat) (g : group) : group :=
  shuffleSwaps f g (g.Len - 1)

/-! Helper lemmas about the slice-manipulation primitives. -/

/-- Copying a slice into a fresh slice of the same length reproduces it. -/
theorem listClone_eq (l : List α) : listClone l = l := by
  induction l with
  | nil => rfl
  | cons a t ih => simp [listClone, ih]

/-- Go copy never changes the length of the destination. -/
theorem copyAt_length (dst : List α) (i : Nat) (src : List α) :
    (copyAt dst i src).length = dst.length := by
  simp [copyAt, List.length_take, List.length_drop]
  omega

/-- The parallel position swap keeps the slice length. -/
theorem listSwap_length (l : List α) (p q : Nat) :
    (listSwap l p q).length = l.length := by
  unfold listSwap
  cases hp : l[p]? with
  | none => simp
  | some a =>
    cases hq : l[q]? with
    | none => simp
    | some b => simp [List.length_set]


/-- Reading the swapped slice: position q holds the old p entry, position
p the old q entry, other positions are untouched. -/
theorem listSwap_getElem? (l : List α) (p q n : Nat)
    (hp : p < l.length) (hq : q < l.length) :
    (listSwap l p q)[n]? =
      if n = q then l[p]? else if n = p then l[q]? else l[n]? := by
  have hps : l[p]? = some (l.get ⟨p, hp⟩) := List.getElem?_eq_getElem hp
  have hqs : l[q]? = some (l.get ⟨q, hq⟩) := List.getElem?_eq_getElem hq
  have hswap : listSwap l p q =
      (l.set p (l.get ⟨q, hq⟩)).set q (l.get ⟨p, hp⟩) := by
    unfold listSwap
    rw [hps, hqs]
  rw [hswap]
  by_cases h1 : n = q
  · subst h1
    rw [if_pos rfl, List.getElem?_set_self (by simpa [List.length_set] using hq)]
    rw [hps]
  · rw [if_neg h1, List.getElem?_set_ne (fun hc => h1 hc.symm)]
    by_cases h2 : n = p
    · subst h2
      rw [if_pos rfl, List.getElem?_set_self hp]
      rw [hqs]
    · rw [if_neg h2, List.getElem?_set_ne (fun hc => h2 hc.symm)]

/-- The swap loop leaves the middle region, and everything past the end,
untouched. -/
theorem revSwaps_getElem?_mid (len : Nat) (l : List α) (k n : Nat)
    (hlen : l.length = len) (hk : 2 * k ≤ len)
    (hn1 : k ≤ n) (hn2 : n < len - k ∨ len ≤ n) :
    (revSwaps len l k)[n]? = l[n]? := by
  induction k generalizing l with
  | zero => rfl
  | succ k ih =>
    have hp : k < l.length := by omega
    have hq : len - 1 - k < l.length := by omega
    simp only [revSwaps]
    rw [ih (listSwap l k (len - 1 - k)) (by rw [listSwap_length]; exact hlen)
        (by omega) (by omega) (by omega)]
    rw [listSwap_getElem? l k (len - 1 - k) n hp hq]
    rw [if_neg (by omega), if_neg (by omega)]

/-- The first k positions of the swapped slice hold the mirror entries. -/
theorem revSwaps_getElem?_lo (len : Nat) (l : List α) (k n : Nat)
    (hlen : l.length = len) (hk : 2 * k ≤ len) (hn : n < k) :
    (revSwaps len l k)[n]? = l[len - 1 - n]? := by
  induction k generalizing l with
  | zero => omega
  | succ k ih =>
    have hp : k < l.length := by omega
    have hq : len - 1 - k < l.length := by omega
    simp only [revSwaps]
    by_cases hcase : n < k
    · rw [ih (listSwap l k (len - 1 - k)) (by rw [listSwap_length]; exact hlen)
          (by omega) hcase]
      rw [listSwap_getElem? l k (len - 1 - k) (len - 1 - n) hp hq]
      rw [if_neg (by omega), if_neg (by omega)]
    · have hnk : n = k := by omega
      subst hnk
      rw [revSwaps_getElem?_mid len (listSwap l n (len - 1 - n))
          n n (by rw [listSwap_length]; exact hlen) (by omega) le_rfl
          (by omega)]
      rw [listSwap_getElem? l n (len - 1 - n) n hp hq]
      rw [if_neg (by omega), if_pos rfl]

/-- The last k positions of the swapped slice hold the mirror entries. -/
theorem revSwaps_getElem?_hi (len : Nat) (l : List α) (k n : Nat)
    (hlen : l.length = len) (hk : 2 * k ≤ len)
    (hn1 : len - k ≤ n) (hn2 : n < len) :
    (revSwaps len l k)[n]? = l[len - 1 - n]? := by
  induction k generalizing l with
  | zero => omega
  | succ k ih =>
    have hp : k < l.length := by omega
    have hq : len - 1 - k < l.length := by omega
    simp only [revSwaps]
    by_cases hcase : len - k ≤ n
    · rw [ih (listSwap l k (len - 1 - k)) (by rw [listSwap_length]; exact hlen)
          (by omega) hcase]
      rw [listSwap_getElem? l k (len - 1 - k) (len - 1 - n) hp hq]
      rw [if_neg (by omega), if_neg (by omega)]
    · have hnk : n = len - 1 - k := by omega
      rw [revSwaps_getElem?_mid len (listSwap l k (len - 1 - k))
          k n (by rw [listSwap_length]; exact hlen) (by omega) (by omega)
          (by omega)]
      rw [listSwap_getElem? l k (len - 1 - k) n hp hq]
      rw [if_pos hnk]
      congr 1
      omega

/-- Running the swap loop for half the length reverses the slice, which is
what the flip and Reverse loops rely on. -/
theorem revSwaps_reverse (l : List α) (len : Nat) (hlen : l.length = len) :
    revSwaps len l (len / 2) = l.reverse := by
  apply List.ext_getElem?
  intro n
  by_cases hn : n < len
  · have hrev : l.reverse[n]? = l[len - 1 - n]? := by
      rw [List.getElem?_reverse (by omega), hlen]
    by_cases h1 : n < len / 2
    · rw [revSwaps_getElem?_lo len l (len / 2) n hlen (by omega) h1, hrev]
    · by_cases h2 : len - len / 2 ≤ n
      · rw [revSwaps_getElem?_hi len l (len / 2) n hlen (by omega) h2 hn, hrev]
      · have hmid : n = len - 1 - n := by omega
        rw [revSwaps_getElem?_mid len l (len / 2) n hlen (by omega) (by omega)
            (by omega), hrev, ← hmid]
  · rw [revSwaps_getElem?_mid len l (len / 2) n hlen (by omega) (by omega)
        (by omega)]
    rw [List.getElem?_eq_none (by omega), List.getElem?_eq_none]
    rw [List.length_reverse]
    omega

/-- The toggle loop keeps the slice length. -/
theorem toggleFrom_length (i j n : Nat) (l : List Bool) :
    (toggleFrom i j n l).length = l.length := by
  induction l generalizing n with
  | nil => rfl
  | cons b t ih => simp [toggleFrom, ih]

/-- Reading the toggled slice: a position inside the range is negated,
others are untouched (n is the index of the head of l). -/
theorem toggleFrom_getElem? (i j n m : Nat) (l : List Bool) :
    (toggleFrom i j n l)[m]? =
      (l[m]?).map (fun b => if i ≤ n + m ∧ n + m < j then !b else b) := by
  induction l generalizing n m with
  | nil => simp [toggleFrom]
  | cons b t ih =>
    cases m with
    | zero => simp [toggleFrom]
    | succ m =>
      simp only [toggleFrom, List.getElem?_cons_succ, ih (n + 1) m]
      have harith : n + 1 + m = n + (m + 1) := by omega
      rw [harith]

/-- The swap loop keeps the slice length. -/
theorem revSwaps_length (len : Nat) (l : List α) (k : Nat) :
    (revSwaps len l k).length = l.length := by
  induction k generalizing l with
  | zero => rfl
  | succ k ih => simp [revSwaps, ih, listSwap_length]

/-- The toggle loop started at index 0 rewrites the slice as prefix,
negated middle range and suffix. -/
theorem toggleRange_eq (i j : Nat) (l : List Bool) (hij : i ≤ j)
    (hj : j ≤ l.length) :
    toggleFrom i j 0 l =
      l.take i ++ ((l.drop i).take (j - i)).map (fun b => !b) ++ l.drop j := by
  have hA : (l.take i).length = i := by
    rw [List.length_take]; omega
  have hB : (((l.drop i).take (j - i)).map (fun b => !b)).length = j - i := by
    rw [List.length_map, List.length_take, List.length_drop]; omega
  apply List.ext_getElem?
  intro m
  rw [toggleFrom_getElem?]
  rw [List.getElem?_append, List.getElem?_append, List.length_append, hA, hB]
  by_cases h1 : m < i
  · rw [if_pos (by omega), if_pos h1, List.getElem?_take, if_pos h1]
    cases hm : l[m]? with
    | none => rfl
    | some b =>
      simp only [Option.map_some']
      rw [if_neg (by omega)]
  · by_cases h2 : m < j
    · rw [if_pos (by omega), if_neg h1, List.getElem?_map, List.getElem?_take,
        if_pos (by omega), List.getElem?_drop]
      have harith : i + (m - i) = m := by omega
      rw [harith]
      cases hm : l[m]? with
      | none => rfl
      | some b =>
        simp only [Option.map_some']
        rw [if_pos (by omega)]
    · rw [if_neg (by omega), List.getElem?_drop]
      have harith : j + (m - (i + (j - i))) = m := by omega
      rw [harith]
      cases hm : l[m]? with
      | none => rfl
      | some b =>
        simp only [Option.map_some']
        rw [if_neg (by omega)]

/-- flip keeps the card slice length, whatever the range. -/
theorem flip_cards_length (g : group) (i j : Nat) :
    (g.flip i j).cards.length = g.cards.length := by
  simp only [group.flip]
  simp only [List.length_append, List.length_take, List.length_drop,
    revSwaps_length]
  omega

/-- flip keeps the direction slice length, whatever the range. -/
theorem flip_flipd_length (g : group) (i j : Nat) :
    (g.flip i j).flipd.length = g.flipd.length := by
  simp only [group.flip]
  simp only [List.length_append, List.length_take, List.length_drop,
    revSwaps_length, toggleFrom_length]
  omega

/-- On a valid range the card slice of flip is the prefix, the reversed
range and the suffix. -/
theorem flip_cards_eq (g : group) (i j : Nat) (hij : i ≤ j)
    (hj : j ≤ g.cards.length) :
    (g.flip i j).cards =
      g.cards.take i ++ ((g.cards.drop i).take (j - i)).reverse
        ++ g.cards.drop j := by
  have hc : ((g.cards.drop i).take (j - i)).length = j - i := by
    rw [List.length_take, List.length_drop]; omega
  simp only [group.flip]
  rw [revSwaps_reverse _ _ rfl, hc]
  have harith : i + (j - i) = j := by omega
  rw [harith]

/-- On a valid range the direction slice of flip is the prefix, the
reversed negated range and the suffix. -/
theorem flip_flipd_eq (g : group) (i j : Nat) (hinv : ginv g) (hij : i ≤ j)
    (hj : j ≤ g.cards.length) :
    (g.flip i j).flipd =
      g.flipd.take i
        ++ (((g.flipd.drop i).take (j - i)).map (fun b => !b)).reverse
        ++ g.flipd.drop j := by
  have hjf : j ≤ g.flipd.length := by rw [hinv]; exact hj
  have hc : ((g.cards.drop i).take (j - i)).length = j - i := by
    rw [List.length_take, List.length_drop]; omega
  have hA : (g.flipd.take i).length = i := by
    rw [List.length_take]; omega
  have hB : (((g.flipd.drop i).take (j - i)).map (fun b => !b)).length
      = j - i := by
    rw [List.length_map, List.length_take, List.length_drop]; omega
  have hT : toggleFrom i j 0 g.flipd =
      g.flipd.take i
        ++ (((g.flipd.drop i).take (j - i)).map (fun b => !b)
          ++ g.flipd.drop j) := by
    rw [toggleRange_eq i j g.flipd hij hjf, List.append_assoc]
  have hTd : (((toggleFrom i j 0 g.flipd).drop i).take (j - i))
      = ((g.flipd.drop i).take (j - i)).map (fun b => !b) := by
    rw [hT, List.drop_left' hA, List.take_left' hB]
  have hTi : (toggleFrom i j 0 g.flipd).take i = g.flipd.take i := by
    rw [hT, List.take_left' hA]
  have hTj : (toggleFrom i j 0 g.flipd).drop (i + (j - i))
      = g.flipd.drop j := by
    rw [hT, ← List.append_assoc]
    apply List.drop_left'
    rw [List.length_append, hA, hB]
  simp only [group.flip]
  rw [hTd, hB, hc, hTi, hTj]
  rw [revSwaps_reverse _ _ hB]

/-- flip keeps the two slices the same length. -/
theorem flip_ginv (g : group) (i j : Nat) (hinv : ginv g) :
    ginv (g.flip i j) := by
  unfold ginv
  rw [flip_cards_length, flip_flipd_length]
  exact hinv

/-- Reading a slice rebuilt from its prefix, a replacement middle of the
same length, and its suffix. -/
theorem spliced_getElem? (l : List α) (M : List α) (i j n : Nat)
    (hij : i ≤ j) (hj : j ≤ l.length) (hM : M.length = j - i) :
    (l.take i ++ M ++ l.drop j)[n]? =
      if n < i then l[n]? else if n < j then M[n - i]? else l[n]? := by
  have hA : (l.take i).length = i := by rw [List.length_take]; omega
  rw [List.getElem?_append, List.getElem?_append, List.length_append, hA, hM]
  by_cases h1 : n < i
  · rw [if_pos (by omega), if_pos h1, if_pos h1, List.getElem?_take, if_pos h1]
  · by_cases h2 : n < j
    · rw [if_pos (by omega), if_neg h1, if_neg h1, if_pos h2]
    · rw [if_neg (by omega), if_neg h1, if_neg h2, List.getElem?_drop]
      congr 1
      omega

/-- Splicing a same-length middle back between the prefix and suffix of a
slice reproduces the slice. -/
theorem take_mid_drop (l : List α) (i j : Nat) (hij : i ≤ j)
    (hj : j ≤ l.length) :
    l.take i ++ ((l.drop i).take (j - i) ++ l.drop j) = l := by
  have h1 : l.drop j = (l.drop i).drop (j - i) := by
    rw [List.drop_drop]
    congr 1
    omega
  rw [h1, List.take_append_drop, List.take_append_drop]

/-- Flipping the same valid range twice restores the card slice. -/
theorem flip_flip_cards (g : group) (i j : Nat) (hij : i ≤ j)
    (hj : j ≤ g.cards.length) :
    ((g.flip i j).flip i j).cards = g.cards := by
  have hj' : j ≤ (g.flip i j).cards.length := by
    rw [flip_cards_length]; exact hj
  have hfc := flip_cards_eq g i j hij hj
  have hA : (g.cards.take i).length = i := by rw [List.length_take]; omega
  have hM : ((g.cards.drop i).take (j - i)).reverse.length = j - i := by
    rw [List.length_reverse, List.length_take, List.length_drop]; omega
  have h1 : (g.flip i j).cards.take i = g.cards.take i := by
    rw [hfc, List.append_assoc, List.take_left' hA]
  have h2 : ((g.flip i j).cards.drop i).take (j - i)
      = ((g.cards.drop i).take (j - i)).reverse := by
    rw [hfc, List.append_assoc, List.drop_left' hA, List.take_left' hM]
  have h3 : (g.flip i j).cards.drop j = g.cards.drop j := by
    rw [hfc]
    apply List.drop_left'
    rw [List.length_append, hA, hM]
    omega
  rw [flip_cards_eq _ i j hij hj', h1, h2, h3, List.reverse_reverse,
    List.append_assoc, take_mid_drop _ i j hij hj]

/-- Flipping the same valid range twice restores the direction slice. -/
theorem flip_flip_flipd (g : group) (i j : Nat) (hinv : ginv g)
    (hij : i ≤ j) (hj : j ≤ g.cards.length) :
    ((g.flip i j).flip i j).flipd = g.flipd := by
  have hinv' : ginv (g.flip i j) := flip_ginv g i j hinv
  have hj' : j ≤ (g.flip i j).cards.length := by
    rw [flip_cards_length]; exact hj
  have hjf : j ≤ g.flipd.length := by rw [hinv]; exact hj
  have hfd := flip_flipd_eq g i j hinv hij hj
  have hA : (g.flipd.take i).length = i := by rw [List.length_take]; omega
  have hM : (((g.flipd.drop i).take (j - i)).map (fun b => !b)).reverse.length
      = j - i := by
    rw [List.length_reverse, List.length_map, List.length_take,
      List.length_drop]
    omega
  have h1 : (g.flip i j).flipd.take i = g.flipd.take i := by
    rw [hfd, List.append_assoc, List.take_left' hA]
  have h2 : ((g.flip i j).flipd.drop i).take (j - i)
      = (((g.flipd.drop i).take (j - i)).map (fun b => !b)).reverse := by
    rw [hfd, List.append_assoc, List.drop_left' hA, List.take_left' hM]
  have h3 : (g.flip i j).flipd.drop j = g.flipd.drop j := by
    rw [hfd]
    apply List.drop_left'
    rw [List.length_append, hA, hM]
    omega
  rw [flip_flipd_eq _ i j hinv' hij hj', h1, h2, h3]
  have hmid : ((((g.flipd.drop i).take (j - i)).map
        (fun b => !b)).reverse.map (fun b => !b)).reverse
      = (g.flipd.drop i).take (j - i) := by
    rw [List.map_reverse, List.reverse_reverse, List.map_map]
    have hcomp : ((fun b => !b) ∘ fun b : Bool => !b) = fun b : Bool => b := by
      funext b
      simp [Bool.not_not]
    rw [hcomp, List.map_id']
  rw [hmid, List.append_assoc, take_mid_drop _ i j hij hjf]

/-- Cards returns the card slice itself once the copy is unfolded. -/
theorem Cards_eq (g : group) : g.Cards = g.cards := listClone_eq _

/-- FlippedArray returns the direction slice itself once the copy is
unfolded. -/
theorem FlippedArray_eq (g : group) : g.FlippedArray = g.flipd :=
  listClone_eq _

/-- The drawn part of drawAt is the selected range of both slices. -/
theorem drawAt_fst (g : group) (i j : Nat) :
    (g.drawAt i j).1 =
      ⟨(g.cards.drop i).take (j - i), (g.flipd.drop i).take (j - i)⟩ := rfl

/-- The card slice remaining after drawAt is the prefix plus the suffix. -/
theorem drawAt_snd_cards (g : group) (i j : Nat) (hij : i ≤ j)
    (hj : j ≤ g.cards.length) :
    (g.drawAt i j).2.cards = g.cards.take i ++ g.cards.drop j := by
  show (copyAt g.cards i (g.cards.drop j)).take (g.cards.length - (j - i))
      = _
  unfold copyAt
  rw [List.take_of_length_le (l := g.cards.drop j)
    (by rw [List.length_drop]; omega)]
  apply List.take_left'
  rw [List.length_append, List.length_take, List.length_drop]
  omega

/-- The direction slice remaining after drawAt is the prefix plus the
suffix. -/
theorem drawAt_snd_flipd (g : group) (i j : Nat) (hinv : ginv g)
    (hij : i ≤ j) (hj : j ≤ g.cards.length) :
    (g.drawAt i j).2.flipd = g.flipd.take i ++ g.flipd.drop j := by
  have hjf : j ≤ g.flipd.length := by rw [hinv]; exact hj
  show (copyAt g.flipd i (g.flipd.drop j)).take (g.flipd.length - (j - i))
      = _
  unfold copyAt
  rw [List.take_of_length_le (l := g.flipd.drop j)
    (by rw [List.length_drop]; omega)]
  apply List.take_left'
  rw [List.length_append, List.length_take, List.length_drop]
  omega

/-- The clamped count used by Draw and DrawBottom, as the spec phrases
it: m = min(max(n, 0), N). -/
def clampCount (n : Int) (len : Nat) : Nat :=
  (min (max n 0) (len : Int)).toNat

/-- Draw reduces to drawAt of the top clamped range. -/
theorem Draw_eq (g : group) (n : Int) :
    g.Draw n =
      g.drawAt (g.cards.length - clampCount n g.cards.length)
        g.cards.length := by
  simp only [group.Draw, clampCount]
  congr 2
  split_ifs <;> omega

/-- DrawBottom reduces to drawAt of the bottom clamped range. -/
theorem DrawBottom_eq (g : group) (n : Int) :
    g.DrawBottom n = g.drawAt 0 (clampCount n g.cards.length) := by
  simp only [group.DrawBottom, clampCount]
  congr 2
  split_ifs <;> omega

/-- Writing back the entry already stored at a position changes nothing. -/
theorem set_of_getElem? (l : List α) (p : Nat) (x : α)
    (hx : l[p]? = some x) : l.set p x = l := by
  induction l generalizing p with
  | nil => simp at hx
  | cons b t ih =>
    cases p with
    | zero =>
      have hb : b = x := by simpa using hx
      rw [List.set_cons_zero, hb]
    | succ p =>
      rw [List.getElem?_cons_succ] at hx
      rw [List.set_cons_succ, ih p hx]

/-- Overwriting position k with a and carrying the displaced entry to the
front permutes pushing a on the front. -/
theorem getElem_set_cons_perm (l : List α) (k : Nat) (a x : α)
    (hx : l[k]? = some x) :
    (x :: l.set k a).Perm (a :: l) := by
  induction l generalizing k with
  | nil => simp at hx
  | cons b t ih =>
    cases k with
    | zero =>
      have hb : b = x := by simpa using hx
      subst hb
      rw [List.set_cons_zero]
      exact List.Perm.swap a b t
    | succ k =>
      rw [List.getElem?_cons_succ] at hx
      rw [List.set_cons_succ]
      exact ((List.Perm.swap b x (t.set k a)).trans
        ((ih k hx).cons b)).trans (List.Perm.swap a b t)

/-- The double-set realizing a two-position swap permutes the slice. -/
theorem set_set_perm (l : List α) (p q : Nat) (xp xq : α)
    (hxp : l[p]? = some xp) (hxq : l[q]? = some xq) :
    ((l.set p xq).set q xp).Perm l := by
  induction l generalizing p q with
  | nil => simp at hxp
  | cons b t ih =>
    cases p with
    | zero =>
      have hb : b = xp := by simpa using hxp
      cases q with
      | zero =>
        have hb2 : b = xq := by simpa using hxq
        rw [List.set_cons_zero, List.set_cons_zero, ← hb]
      | succ q =>
        rw [List.getElem?_cons_succ] at hxq
        rw [List.set_cons_zero, List.set_cons_succ, ← hb]
        exact getElem_set_cons_perm t q b xq hxq
    | succ p =>
      rw [List.getElem?_cons_succ] at hxp
      cases q with
      | zero =>
        have hb2 : b = xq := by simpa using hxq
        rw [List.set_cons_succ, List.set_cons_zero, ← hb2]
        exact getElem_set_cons_perm t p b xp hxp
      | succ q =>
        rw [List.getElem?_cons_succ] at hxq
        rw [List.set_cons_succ, List.set_cons_succ]
        exact (ih p q hxp hxq).cons b

/-- A position swap with both positions present permutes the slice. -/
theorem listSwap_perm (l : List α) (p q : Nat)
    (hp : p < l.length) (hq : q < l.length) : (listSwap l p q).Perm l := by
  have hxp := List.getElem?_eq_getElem hp
  have hxq := List.getElem?_eq_getElem hq
  unfold listSwap
  rw [hxp, hxq]
  exact set_set_perm l p q (l.get ⟨p, hp⟩) (l.get ⟨q, hq⟩) hxp hxq

/-- Setting the same position of two zipped slices sets the pair. -/
theorem zip_set (c : List α) (d : List β) (n : Nat) (a : α) (b : β) :
    (c.set n a).zip (d.set n b) = (c.zip d).set n (a, b) := by
  induction c generalizing d n with
  | nil => simp
  | cons cb ct ih =>
    cases d with
    | nil => simp
    | cons db dt =>
      cases n with
      | zero =>
        rw [List.set_cons_zero, List.set_cons_zero, List.zip_cons_cons,
          List.zip_cons_cons, List.set_cons_zero]
      | succ n =>
        rw [List.set_cons_succ, List.set_cons_succ, List.zip_cons_cons,
          List.zip_cons_cons, List.set_cons_succ, ih dt n]

/-- Swapping the same two present positions of two parallel slices swaps
the corresponding pairs of their zip. -/
theorem zip_listSwap (u : List α) (v : List β) (p q : Nat)
    (hlen : v.length = u.length) (hp : p < u.length) (hq : q < u.length) :
    (listSwap u p q).zip (listSwap v p q) = listSwap (u.zip v) p q := by
  have hdp : p < v.length := by omega
  have hdq : q < v.length := by omega
  have hcp := List.getElem?_eq_getElem hp
  have hcq := List.getElem?_eq_getElem hq
  have hdp' := List.getElem?_eq_getElem hdp
  have hdq' := List.getElem?_eq_getElem hdq
  have hzp : (u.zip v)[p]? = some (u[p], v[p]) := by
    rw [List.getElem?_zip_eq_some]
    exact ⟨hcp, hdp'⟩
  have hzq : (u.zip v)[q]? = some (u[q], v[q]) := by
    rw [List.getElem?_zip_eq_some]
    exact ⟨hcq, hdq'⟩
  unfold listSwap
  rw [hcp, hcq, hdp', hdq', hzp, hzq]
  simp only []
  rw [zip_set, zip_set]

/-- Swap keeps the card slice length, whatever the indices. -/
theorem Swap_cards_length (g : group) (i j : Int) :
    (g.Swap i j).cards.length = g.cards.length := listSwap_length ..

/-- Swap keeps the direction slice length, whatever the indices. -/
theorem Swap_flipd_length (g : group) (i j : Int) :
    (g.Swap i j).flipd.length = g.flipd.length := listSwap_length ..

/-- Swap keeps the invariant. -/
theorem Swap_ginv (g : group) (i j : Int) (hinv : ginv g) :
    ginv (g.Swap i j) := by
  unfold ginv
  rw [Swap_cards_length, Swap_flipd_length]
  exact hinv

/-- At valid non-negative positions, Swap moves the card and its direction
bit together: the zip of the two slices undergoes the position swap. -/
theorem Swap_zip (g : group) (p q : Nat) (hinv : ginv g)
    (hp : p < g.cards.length) (hq : q < g.cards.length) :
    ((g.Swap (p : Int) (q : Int)).cards).zip
        ((g.Swap (p : Int) (q : Int)).flipd)
      = listSwap (g.cards.zip g.flipd) p q := by
  have hip : g.index (p : Int) = (p : Int) := by
    unfold group.index
    rw [if_neg (by omega)]
  have hiq : g.index (q : Int) = (q : Int) := by
    unfold group.index
    rw [if_neg (by omega)]
  have htp : ((p : Int)).toNat = p := by omega
  have htq : ((q : Int)).toNat = q := by omega
  simp only [group.Swap, hip, hiq, htp, htq]
  exact zip_listSwap g.cards g.flipd p q hinv hp hq

/-- The Fisher-Yates loop with every sampled index in its required range
permutes the zipped card/direction pairs and keeps the length. -/
theorem shuffleSwaps_perm (f : Nat → Nat) (g : group) (k : Nat)
    (hinv : ginv g) (hk : k < g.cards.length ∨ g.cards.length = 0)
    (hf : ∀ i, 1 ≤ i → i ≤ k → f i ≤ i) :
    ((shuffleSwaps f g k).cards.zip (shuffleSwaps f g k).flipd).Perm
        (g.cards.zip g.flipd)
      ∧ (shuffleSwaps f g k).cards.length = g.cards.length
      ∧ ginv (shuffleSwaps f g k) := by
  induction k generalizing g with
  | zero => exact ⟨List.Perm.refl _, rfl, hinv⟩
  | succ k ih =>
    rcases hk with hlt | hzero
    · have hfl : g.flipd.length = g.cards.length := hinv
      have hq : f (k + 1) < g.cards.length := by
        have := hf (k + 1) (by omega) (by omega)
        omega
      have hinv' : ginv (g.Swap (↑(k + 1)) (↑(f (k + 1)))) :=
        Swap_ginv g _ _ hinv
      have hlen' : (g.Swap (↑(k + 1)) (↑(f (k + 1)))).cards.length
          = g.cards.length := Swap_cards_length ..
      have hrec := ih (g.Swap (↑(k + 1)) (↑(f (k + 1)))) hinv'
        (by rw [hlen']; omega)
        (fun i h1 h2 => hf i h1 (by omega))
      refine ⟨?_, ?_, hrec.2.2⟩
      · refine hrec.1.trans ?_
        rw [Swap_zip g (k + 1) (f (k + 1)) hinv hlt hq]
        apply listSwap_perm
        · rw [List.length_zip]
          omega
        · rw [List.length_zip]
          omega
      · rw [shuffleSwaps]
        rw [hrec.2.1, hlen']
    · have hc : g.cards = [] := List.length_eq_zero.mp hzero
      have hd : g.flipd = [] := List.length_eq_zero.mp (by
        rw [hinv]; exact hzero)
      have hg : g.Swap (↑(k + 1)) (↑(f (k + 1))) = g := by
        obtain ⟨cs, fs⟩ := g
        simp only [group.Swap]
        simp only at hc hd
        subst hc
        subst hd
        simp [listSwap]
      rw [shuffleSwaps, hg]
      exact ih g hinv (Or.inr hzero) (fun i h1 h2 => hf i h1 (by omega))

/-- The drawn group of drawAt keeps the invariant. -/
theorem drawAt_fst_ginv (g : group) (i j : Nat) (hinv : ginv g) :
    ginv (g.drawAt i j).1 := by
  unfold ginv
  simp only [group.drawAt]
  rw [List.length_take, List.length_take, List.length_drop,
    List.length_drop, hinv]

/-- The remaining group of drawAt keeps the invariant. -/
theorem drawAt_snd_ginv (g : group) (i j : Nat) (hinv : ginv g) :
    ginv (g.drawAt i j).2 := by
  unfold ginv
  simp only [group.drawAt]
  rw [List.length_take, List.length_take, copyAt_length, copyAt_length,
    hinv]

/-- Two groups with the same slices are equal. -/
theorem group_ext (g h : group) (hc : g.cards = h.cards)
    (hd : g.flipd = h.flipd) : g = h := by
  cases g
  cases h
  simp_all

/-- Reading any position of the card slice after flip over a valid range:
inside the range the mirror card appears, outside nothing changes. -/
theorem flip_cards_read (g : group) (i j n : Nat) (hij : i ≤ j)
    (hj : j ≤ g.cards.length) :
    (g.flip i j).cards[n]? =
      if n < i then g.cards[n]?
      else if n < j then g.cards[i + j - 1 - n]?
      else g.cards[n]? := by
  rw [flip_cards_eq g i j hij hj,
    spliced_getElem? _ _ i j n hij hj
      (by rw [List.length_reverse, List.length_take, List.length_drop]; omega)]
  by_cases h1 : n < i
  · rw [if_pos h1, if_pos h1]
  · rw [if_neg h1, if_neg h1]
    by_cases h2 : n < j
    · rw [if_pos h2, if_pos h2,
        List.getElem?_reverse
          (by rw [List.length_take, List.length_drop]; omega),
        List.length_take, List.length_drop, List.getElem?_take,
        if_pos (by omega), List.getElem?_drop]
      congr 1
      omega
    · rw [if_neg h2, if_neg h2]

/-- Reading any position of the direction slice after flip over a valid
range: inside the range the mirror bit appears negated, outside nothing
changes. -/
theorem flip_flipd_read (g : group) (i j n : Nat) (hinv : ginv g)
    (hij : i ≤ j) (hj : j ≤ g.cards.length) :
    (g.flip i j).flipd[n]? =
      if n < i then g.flipd[n]?
      else if n < j then (g.flipd[i + j - 1 - n]?).map (fun b => !b)
      else g.flipd[n]? := by
  have hjf : j ≤ g.flipd.length := by rw [hinv]; exact hj
  rw [flip_flipd_eq g i j hinv hij hj,
    spliced_getElem? _ _ i j n hij hjf
      (by
        rw [List.length_reverse, List.length_map, List.length_take,
          List.length_drop]
        omega)]
  by_cases h1 : n < i
  · rw [if_pos h1, if_pos h1]
  · rw [if_neg h1, if_neg h1]
    by_cases h2 : n < j
    · rw [if_pos h2, if_pos h2,
        List.getElem?_reverse
          (by
            rw [List.length_map, List.length_take, List.length_drop]
            omega),
        List.length_map, List.length_take, List.length_drop,
        List.getElem?_map, List.getElem?_take, if_pos (by omega),
        List.getElem?_drop]
      have harith : i + ((j - i) ⊓ (g.flipd.length - i) - 1 - (n - i))
          = i + j - 1 - n := by omega
      rw [harith]
    · rw [if_neg h2, if_neg h2]

/-- The clamped draw count never exceeds the length. -/
theorem clampCount_le (n : Int) (len : Nat) : clampCount n len ≤ len := by
  unfold clampCount
  omega

/-- Insert appends the card slices. -/
theorem Insert_cards (g ng : group) :
    (g.Insert ng).cards = g.cards ++ ng.cards := by
  show g.cards ++ ng.Cards = _
  rw [Cards_eq]

/-- Insert appends the direction slices. -/
theorem Insert_flipd (g ng : group) :
    (g.Insert ng).flipd = g.flipd ++ ng.flipd := by
  show g.flipd ++ ng.FlippedArray = _
  rw [FlippedArray_eq]

/-- InsertBottom prepends the card slices. -/
theorem InsertBottom_cards (g ng : group) :
    (g.InsertBottom ng).cards = ng.cards ++ g.cards := by
  show ng.Cards ++ g.cards = _
  rw [Cards_eq]

/-- InsertBottom prepends the direction slices. -/
theorem InsertBottom_flipd (g ng : group) :
    (g.InsertBottom ng).flipd = ng.flipd ++ g.flipd := by
  show ng.FlippedArray ++ g.flipd = _
  rw [FlippedArray_eq]

/-! Claim theorems. -/

/-- Flip as a method reduces to the normalized flip. -/
theorem Flip_eq (g : group) (i j : Int) :
    g.Flip i j = g.flip (g.index i).toNat (g.index j).toNat := rfl

/-- DrawAt as a method reduces to the normalized drawAt. -/
theorem DrawAt_eq (g : group) (i j : Int) :
    g.DrawAt i j = g.drawAt (g.index i).toNat (g.index j).toNat := rfl

/-- The drawn card slice of drawAt. -/
theorem drawAt_fst_cards (g : group) (i j : Nat) :
    (g.drawAt i j).1.cards = (g.cards.drop i).take (j - i) := rfl

/-- The drawn direction slice of drawAt. -/
theorem drawAt_fst_flipd (g : group) (i j : Nat) :
    (g.drawAt i j).1.flipd = (g.flipd.drop i).take (j - i) := rfl

/-- C6: Card normalizes a negative index by adding the length, returns nil
for a normalized index still out of range, and otherwise the card at the
normalized position; on any non-empty group Card(-1) equals
Card(Len()-1). -/
theorem C6_card_access (g : group) :
    (0 < g.cards.length →
      g.Card (-1) = g.Card ((g.cards.length : Int) - 1))
    ∧ (∀ i : Int, g.index i < 0 ∨ (g.cards.length : Int) ≤ g.index i →
      g.Card i = none)
    ∧ (∀ i : Int, 0 ≤ g.index i → g.index i < (g.cards.length : Int) →
      g.Card i = g.cards[(g.index i).toNat]?) := by
  refine ⟨?_, ?_, ?_⟩
  · intro hpos
    have h1 : g.index (-1) = (g.cards.length : Int) - 1 := by
      unfold group.index
      rw [if_pos (by omega)]
      ring
    have h2 : g.index ((g.cards.length : Int) - 1)
        = (g.cards.length : Int) - 1 := by
      unfold group.index
      rw [if_neg (by omega)]
    simp only [group.Card]
    rw [h1, h2]
  · intro i hi
    simp only [group.Card]
    rw [if_pos hi]
  · intro i h1 h2
    simp only [group.Card]
    rw [if_neg (by omega)]

/-- C6 witness: on a concrete three-card group, Card(-1) equals Card(2)
and Card(7) is nil. -/
theorem C6_card_access_witness :
    ((NewGroup [NewCard 2 Spades, NewCard 3 Spades, NewCard 4 Spades]).Card
        (-1)
      = (NewGroup [NewCard 2 Spades, NewCard 3 Spades, NewCard 4 Spades]).Card
        (((NewGroup [NewCard 2 Spades, NewCard 3 Spades,
          NewCard 4 Spades]).cards.length : Int) - 1))
    ∧ (NewGroup [NewCard 2 Spades, NewCard 3 Spades,
        NewCard 4 Spades]).Card 7 = none :=
  ⟨(C6_card_access
      (NewGroup [NewCard 2 Spades, NewCard 3 Spades, NewCard 4 Spades])).1
    (by decide),
   (C6_card_access
      (NewGroup [NewCard 2 Spades, NewCard 3 Spades, NewCard 4 Spades])).2.1
    7 (by decide)⟩

/-- C7: the standard deck has exactly 52 cards, all face-down, no jokers,
ordered suit-major (Spades, Hearts, Diamonds, Clubs) and rank-ascending
(Ace to King) from the bottom. -/
theorem C7_standard_deck :
    NewStandardDeck.cards.length = 52
    ∧ NewStandardDeck.flipd = List.replicate 52 false
    ∧ (∀ k : Nat, k < 52 →
        NewStandardDeck.cards[k]? = some (NewCard (k % 13 + 1) (k / 13 + 1))
        ∧ (NewStandardDeck.cards[k]?).map Card.Joker = some false)
    ∧ NewStandardDeck.cards[0]? = some (NewCard Ace Spades)
    ∧ NewStandardDeck.cards[12]? = some (NewCard King Spades)
    ∧ NewStandardDeck.cards[13]? = some (NewCard Ace Hearts)
    ∧ NewStandardDeck.cards[25]? = some (NewCard King Hearts)
    ∧ NewStandardDeck.cards[26]? = some (NewCard Ace Diamonds)
    ∧ NewStandardDeck.cards[38]? = some (NewCard King Diamonds)
    ∧ NewStandardDeck.cards[39]? = some (NewCard Ace Clubs)
    ∧ NewStandardDeck.cards[51]? = some (NewCard King Clubs) := by
  decide

/-- C7 witness: the position formula instantiated at position 14 (Two of
Hearts). -/
theorem C7_standard_deck_witness :
    NewStandardDeck.cards[14]? = some (NewCard (14 % 13 + 1) (14 / 13 + 1)) :=
  ((C7_standard_deck.2.2.1 14 (by omega)).1)

/-- C10: the three insert operations leave the argument group untouched:
with the state effect on the argument threaded through, the argument after
the call keeps its identity, slices and length, while the receiver result
agrees with the plain insert operations. -/
theorem C10_insert_arg_frame (g h : group) (i : Int) :
    (g.InsertM h).2 = h
    ∧ (g.InsertM h).2.cards = h.cards
    ∧ (g.InsertM h).2.flipd = h.flipd
    ∧ (g.InsertM h).2.Len = h.Len
    ∧ (g.InsertBottomM h).2 = h
    ∧ (g.InsertAtM i h).2 = h
    ∧ (g.InsertM h).1 = g.Insert h
    ∧ (g.InsertBottomM h).1 = g.InsertBottom h
    ∧ (g.InsertAtM i h).1 = g.InsertAt i h :=
  ⟨rfl, rfl, rfl, rfl, rfl, rfl, rfl, rfl, rfl⟩

/-- C8: the sort comparator on in-range positions orders a joker before a
non-joker, never orders a non-joker before a joker nor a joker before a
joker, and compares two non-jokers by suit value (Spades = 1 up to
Clubs = 4) and then by rank inside an equal suit. -/
theorem C8_less_comparator (g : group) (p q : Nat)
    (hp : p < g.cards.length) (hq : q < g.cards.length) :
    ((g.cards.getD p (Card.card 0 0)).Joker = true →
      (g.cards.getD q (Card.card 0 0)).Joker = false →
      g.Less (p : Int) (q : Int) = true)
    ∧ ((g.cards.getD p (Card.card 0 0)).Joker = false →
      (g.cards.getD q (Card.card 0 0)).Joker = true →
      g.Less (p : Int) (q : Int) = false)
    ∧ ((g.cards.getD p (Card.card 0 0)).Joker = true →
      (g.cards.getD q (Card.card 0 0)).Joker = true →
      g.Less (p : Int) (q : Int) = false)
    ∧ ((g.cards.getD p (Card.card 0 0)).Joker = false →
      (g.cards.getD q (Card.card 0 0)).Joker = false →
      (g.Less (p : Int) (q : Int) = true ↔
        ((g.cards.getD p (Card.card 0 0)).Suit
            < (g.cards.getD q (Card.card 0 0)).Suit
          ∨ ((g.cards.getD p (Card.card 0 0)).Suit
              = (g.cards.getD q (Card.card 0 0)).Suit
            ∧ (g.cards.getD p (Card.card 0 0)).Rank
              < (g.cards.getD q (Card.card 0 0)).Rank))))
    ∧ (Spades = 1 ∧ Hearts = 2 ∧ Diamonds = 3 ∧ Clubs = 4) := by
  have hip : g.index (p : Int) = (p : Int) := by
    unfold group.index
    rw [if_neg (by omega)]
  have hiq : g.index (q : Int) = (q : Int) := by
    unfold group.index
    rw [if_neg (by omega)]
  have htp : ((p : Int)).toNat = p := by omega
  have htq : ((q : Int)).toNat = q := by omega
  have hjoker : ∀ cx : Card, cx.Joker = true → cx = Card.joker := by
    intro cx hcx
    cases cx with
    | card r s => exact absurd hcx (by simp [Card.Joker])
    | joker => rfl
  simp only [group.Less, hip, hiq, htp, htq]
  refine ⟨?_, ?_, ?_, ?_, rfl, rfl, rfl, rfl⟩
  · intro h1 h2
    rw [h1, h2]
    rfl
  · intro h1 h2
    rw [h1, h2]
    rfl
  · intro h1 h2
    rw [hjoker _ h1, hjoker _ h2]
    rfl
  · intro h1 h2
    rw [h1, h2]
    rw [if_neg (by simp), if_neg (by simp)]
    by_cases hs : (g.cards.getD p (Card.card 0 0)).Suit
        = (g.cards.getD q (Card.card 0 0)).Suit
    · rw [if_pos (by simpa using hs), decide_eq_true_eq]
      omega
    · rw [if_neg (by simpa using hs), decide_eq_true_eq]
      omega

/-- C8 witness: on a concrete group holding a joker at position 0 and two
standard cards, the comparator puts the joker first, and the suit-rank
characterization holds between the two standard cards. -/
theorem C8_less_comparator_witness :
    (NewGroup [Card.joker, NewCard 5 Hearts, NewCard 1 Spades]).Less 0 1
        = true
    ∧ ((NewGroup [Card.joker, NewCard 5 Hearts, NewCard 1 Spades]).Less 2 1
          = true
        ↔ (((NewGroup [Card.joker, NewCard 5 Hearts,
              NewCard 1 Spades]).cards.getD 2 (Card.card 0 0)).Suit
              < ((NewGroup [Card.joker, NewCard 5 Hearts,
                NewCard 1 Spades]).cards.getD 1 (Card.card 0 0)).Suit
          ∨ (((NewGroup [Card.joker, NewCard 5 Hearts,
              NewCard 1 Spades]).cards.getD 2 (Card.card 0 0)).Suit
              = ((NewGroup [Card.joker, NewCard 5 Hearts,
                NewCard 1 Spades]).cards.getD 1 (Card.card 0 0)).Suit
            ∧ ((NewGroup [Card.joker, NewCard 5 Hearts,
              NewCard 1 Spades]).cards.getD 2 (Card.card 0 0)).Rank
              < ((NewGroup [Card.joker, NewCard 5 Hearts,
                NewCard 1 Spades]).cards.getD 1 (Card.card 0 0)).Rank))) :=
  ⟨(C8_less_comparator
      (NewGroup [Card.joker, NewCard 5 Hearts, NewCard 1 Spades]) 0 1
      (by decide) (by decide)).1 (by decide) (by decide),
   (C8_less_comparator
      (NewGroup [Card.joker, NewCard 5 Hearts, NewCard 1 Spades]) 2 1
      (by decide) (by decide)).2.2.2.1 (by decide) (by decide)⟩

/-- C1: over a range that is valid after independent negative-index
normalization, Flip places at position i+k the card formerly at position
j-1-k with its direction bit negated, leaves every position outside the
range untouched, sends the face-down group [2S,3S,4S] to [4S,3S,2S] all
face-up, and on a one-card group toggles the single direction bit while
keeping the card. -/
theorem C1_flip_range (g : group) (i j : Int) (hinv : ginv g)
    (h0 : 0 ≤ g.index i) (hij : g.index i ≤ g.index j)
    (hj : g.index j ≤ (g.cards.length : Int)) :
    (∀ k : Nat, (k : Int) < g.index j - g.index i →
      (g.Flip i j).cards[(g.index i).toNat + k]?
          = g.cards[(g.index j).toNat - 1 - k]?
        ∧ (g.Flip i j).flipd[(g.index i).toNat + k]?
          = (g.flipd[(g.index j).toNat - 1 - k]?).map (fun b => !b))
    ∧ (∀ n : Nat, ((n : Int) < g.index i ∨ g.index j ≤ (n : Int)) →
      (g.Flip i j).cards[n]? = g.cards[n]?
        ∧ (g.Flip i j).flipd[n]? = g.flipd[n]?)
    ∧ (NewGroup [NewCard 2 Spades, NewCard 3 Spades,
        NewCard 4 Spades]).Flip 0 3
      = ⟨[NewCard 4 Spades, NewCard 3 Spades, NewCard 2 Spades],
         [true, true, true]⟩
    ∧ (NewGroup [NewCard King Spades]).Flip 0 1
      = ⟨[NewCard King Spades], [true]⟩ := by
  have hi2 : g.index i = ((g.index i).toNat : Int) := by omega
  have hj2 : g.index j = ((g.index j).toNat : Int) := by omega
  have hijn : (g.index i).toNat ≤ (g.index j).toNat := by omega
  have hjn : (g.index j).toNat ≤ g.cards.length := by omega
  refine ⟨?_, ?_, by decide, by decide⟩
  · intro k hk
    have hkn : (g.index i).toNat + k < (g.index j).toNat := by omega
    rw [Flip_eq]
    constructor
    · rw [flip_cards_read g _ _ _ hijn hjn, if_neg (by omega),
        if_pos (by omega)]
      congr 1
      omega
    · rw [flip_flipd_read g _ _ _ hinv hijn hjn, if_neg (by omega),
        if_pos (by omega)]
      have harith : (g.index i).toNat + (g.index j).toNat - 1
            - ((g.index i).toNat + k)
          = (g.index j).toNat - 1 - k := by omega
      rw [harith]
  · intro n hn
    rw [Flip_eq]
    rcases hn with hlow | hhigh
    · constructor
      · rw [flip_cards_read g _ _ _ hijn hjn, if_pos (by omega)]
      · rw [flip_flipd_read g _ _ _ hinv hijn hjn, if_pos (by omega)]
    · constructor
      · rw [flip_cards_read g _ _ _ hijn hjn, if_neg (by omega),
          if_neg (by omega)]
      · rw [flip_flipd_read g _ _ _ hinv hijn hjn, if_neg (by omega),
          if_neg (by omega)]

/-- C1 witness: on the concrete face-down group [2S,3S,4S] with range
[0,3), position 0 receives the card from position 2 with its bit
negated, and on [5S,6S] with range [1,2) position 0 is untouched. -/
theorem C1_flip_range_witness :
    (((NewGroup [NewCard 2 Spades, NewCard 3 Spades,
          NewCard 4 Spades]).Flip 0 3).cards[((NewGroup [NewCard 2 Spades,
          NewCard 3 Spades, NewCard 4 Spades]).index 0).toNat + 0]?
        = (NewGroup [NewCard 2 Spades, NewCard 3 Spades,
          NewCard 4 Spades]).cards[((NewGroup [NewCard 2 Spades,
          NewCard 3 Spades, NewCard 4 Spades]).index 3).toNat - 1 - 0]?)
    ∧ (((NewGroup [NewCard 5 Spades, NewCard 6 Spades]).Flip 1 2).cards[0]?
        = (NewGroup [NewCard 5 Spades, NewCard 6 Spades]).cards[0]?) :=
  ⟨((C1_flip_range (NewGroup [NewCard 2 Spades, NewCard 3 Spades,
      NewCard 4 Spades]) 0 3 (by decide) (by decide) (by decide)
      (by decide)).1 0 (by decide)).1,
   ((C1_flip_range (NewGroup [NewCard 5 Spades, NewCard 6 Spades]) 1 2
      (by decide) (by decide) (by decide) (by decide)).2.1 0
      (by decide)).1⟩

/-- C2: flipping the same valid range twice restores the original card
order and direction bits, and FlipAll applied twice restores the group. -/
theorem C2_flip_involution (g : group) (i j : Int) (hinv : ginv g)
    (h0 : 0 ≤ g.index i) (hij : g.index i ≤ g.index j)
    (hj : g.index j ≤ (g.cards.length : Int)) :
    (g.Flip i j).Flip i j = g ∧ g.FlipAll.FlipAll = g := by
  have hijn : (g.index i).toNat ≤ (g.index j).toNat := by omega
  have hjn : (g.index j).toNat ≤ g.cards.length := by omega
  constructor
  · rw [Flip_eq, Flip_eq]
    have hidx : ∀ x : Int,
        (g.flip (g.index i).toNat (g.index j).toNat).index x = g.index x := by
      intro x
      unfold group.index
      rw [flip_cards_length]
    rw [hidx, hidx]
    exact group_ext _ _ (flip_flip_cards g _ _ hijn hjn)
      (flip_flip_flipd g _ _ hinv hijn hjn)
  · show (g.flip 0 g.cards.length).flip 0
        (g.flip 0 g.cards.length).cards.length = g
    rw [flip_cards_length]
    exact group_ext _ _
      (flip_flip_cards g 0 g.cards.length (by omega) le_rfl)
      (flip_flip_flipd g 0 g.cards.length hinv (by omega) le_rfl)

/-- C2 witness: double Flip of the range [0,3) and double FlipAll on the
concrete group [2S,3S,4S] both restore it. -/
theorem C2_flip_involution_witness :
    ((NewGroup [NewCard 2 Spades, NewCard 3 Spades,
        NewCard 4 Spades]).Flip 0 3).Flip 0 3
      = NewGroup [NewCard 2 Spades, NewCard 3 Spades, NewCard 4 Spades]
    ∧ (NewGroup [NewCard 2 Spades, NewCard 3 Spades,
        NewCard 4 Spades]).FlipAll.FlipAll
      = NewGroup [NewCard 2 Spades, NewCard 3 Spades, NewCard 4 Spades] :=
  C2_flip_involution
    (NewGroup [NewCard 2 Spades, NewCard 3 Spades, NewCard 4 Spades]) 0 3
    (by decide) (by decide) (by decide) (by decide)

/-- C3: Draw then Insert restores the group, DrawBottom then InsertBottom
restores the group, and DrawAt(0,k) then InsertAt(0, result) restores the
group, for every count and every valid split point. -/
theorem C3_draw_insert_roundtrip (g : group) (hinv : ginv g) :
    (∀ n : Int, (g.Draw n).2.Insert (g.Draw n).1 = g)
    ∧ (∀ n : Int, (g.DrawBottom n).2.InsertBottom (g.DrawBottom n).1 = g)
    ∧ (∀ k : Nat, k ≤ g.cards.length →
        (g.DrawAt 0 (k : Int)).2.InsertAt 0 (g.DrawAt 0 (k : Int)).1 = g) := by
  have hflen : g.flipd.length = g.cards.length := hinv
  have hdropc : g.flipd.drop g.cards.length = [] := by
    rw [← hflen, List.drop_length]
  refine ⟨?_, ?_, ?_⟩
  · intro n
    rw [Draw_eq]
    have hmle : clampCount n g.cards.length ≤ g.cards.length :=
      clampCount_le ..
    have hfstc : (g.drawAt
          (g.cards.length - clampCount n g.cards.length)
          g.cards.length).1.cards
        = g.cards.drop (g.cards.length - clampCount n g.cards.length) := by
      rw [drawAt_fst_cards,
        show g.cards.length - (g.cards.length - clampCount n g.cards.length)
          = clampCount n g.cards.length from by omega,
        List.take_of_length_le (by rw [List.length_drop]; omega)]
    have hfstf : (g.drawAt
          (g.cards.length - clampCount n g.cards.length)
          g.cards.length).1.flipd
        = g.flipd.drop (g.cards.length - clampCount n g.cards.length) := by
      rw [drawAt_fst_flipd,
        show g.cards.length - (g.cards.length - clampCount n g.cards.length)
          = clampCount n g.cards.length from by omega,
        List.take_of_length_le (by rw [List.length_drop]; omega)]
    apply group_ext
    · rw [Insert_cards, drawAt_snd_cards g _ _ (by omega) le_rfl,
        List.drop_length, List.append_nil, hfstc]
      exact List.take_append_drop _ _
    · rw [Insert_flipd, drawAt_snd_flipd g _ _ hinv (by omega) le_rfl,
        hdropc, List.append_nil, hfstf]
      exact List.take_append_drop _ _
  · intro n
    rw [DrawBottom_eq]
    have hmle : clampCount n g.cards.length ≤ g.cards.length :=
      clampCount_le ..
    apply group_ext
    · rw [InsertBottom_cards, drawAt_fst_cards,
        drawAt_snd_cards g _ _ (by omega) hmle, List.drop_zero,
        List.take_zero, List.nil_append, Nat.sub_zero]
      exact List.take_append_drop _ _
    · rw [InsertBottom_flipd, drawAt_fst_flipd,
        drawAt_snd_flipd g _ _ hinv (by omega) hmle, List.drop_zero,
        List.take_zero, List.nil_append, Nat.sub_zero]
      exact List.take_append_drop _ _
  · intro k hk
    have h0 : (g.index 0).toNat = 0 := by
      unfold group.index
      rw [if_neg (by omega)]
      rfl
    have hkk : (g.index (k : Int)).toNat = k := by
      unfold group.index
      rw [if_neg (by omega)]
      omega
    rw [DrawAt_eq, h0, hkk]
    have hins : ∀ h2 ng : group,
        h2.InsertAt 0 ng = ⟨ng.cards ++ h2.cards, ng.flipd ++ h2.flipd⟩ := by
      intro h2 ng
      have hidx : h2.index 0 = 0 := by
        unfold group.index
        rw [if_neg (by omega)]
      have ht0 : ((0 : Int)).toNat = 0 := rfl
      simp only [group.InsertAt, hidx]
      rw [if_neg (by omega), if_neg (by omega)]
      rw [ht0, Cards_eq, FlippedArray_eq]
      simp only [List.take_zero, List.drop_zero, List.nil_append]
    rw [hins]
    apply group_ext
    · show (g.drawAt 0 k).1.cards ++ (g.drawAt 0 k).2.cards = g.cards
      rw [drawAt_fst_cards, drawAt_snd_cards g 0 k (by omega) hk,
        List.drop_zero, Nat.sub_zero, List.take_zero, List.nil_append]
      exact List.take_append_drop _ _
    · show (g.drawAt 0 k).1.flipd ++ (g.drawAt 0 k).2.flipd = g.flipd
      rw [drawAt_fst_flipd, drawAt_snd_flipd g 0 k hinv (by omega) hk,
        List.drop_zero, Nat.sub_zero, List.take_zero, List.nil_append]
      exact List.take_append_drop _ _

/-- C3 witness: on the concrete group [2S,3S,4S], Draw 2 plus Insert,
DrawBottom 2 plus InsertBottom, and DrawAt(0,2) plus InsertAt(0, result)
each restore the group. -/
theorem C3_draw_insert_roundtrip_witness :
    (((NewGroup [NewCard 2 Spades, NewCard 3 Spades,
          NewCard 4 Spades]).Draw 2).2.Insert
        ((NewGroup [NewCard 2 Spades, NewCard 3 Spades,
          NewCard 4 Spades]).Draw 2).1
      = NewGroup [NewCard 2 Spades, NewCard 3 Spades, NewCard 4 Spades])
    ∧ (((NewGroup [NewCard 2 Spades, NewCard 3 Spades,
          NewCard 4 Spades]).DrawBottom 2).2.InsertBottom
        ((NewGroup [NewCard 2 Spades, NewCard 3 Spades,
          NewCard 4 Spades]).DrawBottom 2).1
      = NewGroup [NewCard 2 Spades, NewCard 3 Spades, NewCard 4 Spades])
    ∧ (((NewGroup [NewCard 2 Spades, NewCard 3 Spades,
          NewCard 4 Spades]).DrawAt 0 ((2 : Nat) : Int)).2.InsertAt 0
        ((NewGroup [NewCard 2 Spades, NewCard 3 Spades,
          NewCard 4 Spades]).DrawAt 0 ((2 : Nat) : Int)).1
      = NewGroup [NewCard 2 Spades, NewCard 3 Spades, NewCard 4 Spades]) :=
  ⟨(C3_draw_insert_roundtrip (NewGroup [NewCard 2 Spades, NewCard 3 Spades,
      NewCard 4 Spades]) (by decide)).1 2,
   (C3_draw_insert_roundtrip (NewGroup [NewCard 2 Spades, NewCard 3 Spades,
      NewCard 4 Spades]) (by decide)).2.1 2,
   (C3_draw_insert_roundtrip (NewGroup [NewCard 2 Spades, NewCard 3 Spades,
      NewCard 4 Spades]) (by decide)).2.2 2 (by decide)⟩

/-- C5: Draw and DrawBottom clamp their count to [0, Len] (the clamped
count m equals min(max(n,0), N)) and are total: Draw removes the top m
cards and DrawBottom the bottom m, in original order with directions
preserved, leaving N - m cards in the source and m in the result. -/
theorem C5_draw_clamped (g : group) (n : Int) (hinv : ginv g) :
    ((clampCount n g.cards.length : Int)
        = min (max n 0) (g.cards.length : Int))
    ∧ (g.Draw n).1.cards
        = g.cards.drop (g.cards.length - clampCount n g.cards.length)
    ∧ (g.Draw n).1.flipd
        = g.flipd.drop (g.cards.length - clampCount n g.cards.length)
    ∧ (g.Draw n).2.cards
        = g.cards.take (g.cards.length - clampCount n g.cards.length)
    ∧ (g.Draw n).2.flipd
        = g.flipd.take (g.cards.length - clampCount n g.cards.length)
    ∧ (g.Draw n).1.Len = clampCount n g.cards.length
    ∧ (g.Draw n).2.Len
        = g.cards.length - clampCount n g.cards.length
    ∧ (g.DrawBottom n).1.cards = g.cards.take (clampCount n g.cards.length)
    ∧ (g.DrawBottom n).1.flipd = g.flipd.take (clampCount n g.cards.length)
    ∧ (g.DrawBottom n).2.cards = g.cards.drop (clampCount n g.cards.length)
    ∧ (g.DrawBottom n).2.flipd = g.flipd.drop (clampCount n g.cards.length)
    ∧ (g.DrawBottom n).1.Len = clampCount n g.cards.length
    ∧ (g.DrawBottom n).2.Len
        = g.cards.length - clampCount n g.cards.length := by
  have hflen : g.flipd.length = g.cards.length := hinv
  have hmle : clampCount n g.cards.length ≤ g.cards.length :=
    clampCount_le ..
  have hdropc : g.flipd.drop g.cards.length = [] := by
    rw [← hflen, List.drop_length]
  have hfstc : (g.Draw n).1.cards
      = g.cards.drop (g.cards.length - clampCount n g.cards.length) := by
    rw [Draw_eq, drawAt_fst_cards,
      show g.cards.length - (g.cards.length - clampCount n g.cards.length)
        = clampCount n g.cards.length from by omega,
      List.take_of_length_le (by rw [List.length_drop]; omega)]
  have hfstf : (g.Draw n).1.flipd
      = g.flipd.drop (g.cards.length - clampCount n g.cards.length) := by
    rw [Draw_eq, drawAt_fst_flipd,
      show g.cards.length - (g.cards.length - clampCount n g.cards.length)
        = clampCount n g.cards.length from by omega,
      List.take_of_length_le (by rw [List.length_drop]; omega)]
  have hsndc : (g.Draw n).2.cards
      = g.cards.take (g.cards.length - clampCount n g.cards.length) := by
    rw [Draw_eq, drawAt_snd_cards g _ _ (by omega) le_rfl,
      List.drop_length, List.append_nil]
  have hsndf : (g.Draw n).2.flipd
      = g.flipd.take (g.cards.length - clampCount n g.cards.length) := by
    rw [Draw_eq, drawAt_snd_flipd g _ _ hinv (by omega) le_rfl, hdropc,
      List.append_nil]
  have hbfc : (g.DrawBottom n).1.cards
      = g.cards.take (clampCount n g.cards.length) := by
    rw [DrawBottom_eq, drawAt_fst_cards, List.drop_zero, Nat.sub_zero]
  have hbff : (g.DrawBottom n).1.flipd
      = g.flipd.take (clampCount n g.cards.length) := by
    rw [DrawBottom_eq, drawAt_fst_flipd, List.drop_zero, Nat.sub_zero]
  have hbsc : (g.DrawBottom n).2.cards
      = g.cards.drop (clampCount n g.cards.length) := by
    rw [DrawBottom_eq, drawAt_snd_cards g _ _ (by omega) hmle,
      List.take_zero, List.nil_append]
  have hbsf : (g.DrawBottom n).2.flipd
      = g.flipd.drop (clampCount n g.cards.length) := by
    rw [DrawBottom_eq, drawAt_snd_flipd g _ _ hinv (by omega) hmle,
      List.take_zero, List.nil_append]
  refine ⟨by unfold clampCount; omega, hfstc, hfstf, hsndc, hsndf,
    ?_, ?_, hbfc, hbff, hbsc, hbsf, ?_, ?_⟩
  · show (g.Draw n).1.cards.length = _
    rw [hfstc, List.length_drop]
    omega
  · show (g.Draw n).2.cards.length = _
    rw [hsndc, List.length_take]
    omega
  · show (g.DrawBottom n).1.cards.length = _
    rw [hbfc, List.length_take]
    omega
  · show (g.DrawBottom n).2.cards.length = _
    rw [hbsc, List.length_drop]

/-- C5 witness: drawing 5 from the concrete three-card group clamps to 3
and empties it, keeping the drawn cards in order. -/
theorem C5_draw_clamped_witness :
    ((clampCount 5 (NewGroup [NewCard 2 Spades, NewCard 3 Spades,
          NewCard 4 Spades]).cards.length : Int)
        = min (max 5 0) ((NewGroup [NewCard 2 Spades, NewCard 3 Spades,
          NewCard 4 Spades]).cards.length : Int))
    ∧ ((NewGroup [NewCard 2 Spades, NewCard 3 Spades,
          NewCard 4 Spades]).Draw 5).1.cards
        = (NewGroup [NewCard 2 Spades, NewCard 3 Spades,
          NewCard 4 Spades]).cards.drop
          ((NewGroup [NewCard 2 Spades, NewCard 3 Spades,
            NewCard 4 Spades]).cards.length
            - clampCount 5 (NewGroup [NewCard 2 Spades, NewCard 3 Spades,
              NewCard 4 Spades]).cards.length) :=
  ⟨(C5_draw_clamped (NewGroup [NewCard 2 Spades, NewCard 3 Spades,
      NewCard 4 Spades]) 5 (by decide)).1,
   (C5_draw_clamped (NewGroup [NewCard 2 Spades, NewCard 3 Spades,
      NewCard 4 Spades]) 5 (by decide)).2.1⟩

/-- Zipping equal-position prefixes is the prefix of the zip. -/
theorem zip_take (c : List α) (d : List β) (n : Nat) :
    (c.take n).zip (d.take n) = (c.zip d).take n := by
  induction c generalizing d n with
  | nil => simp
  | cons a t ih =>
    cases d with
    | nil => simp
    | cons b u =>
      cases n with
      | zero => simp
      | succ n =>
        rw [List.take_succ_cons, List.take_succ_cons, List.zip_cons_cons,
          List.zip_cons_cons, List.take_succ_cons, ih u n]

/-- Zipping equal-position suffixes is the suffix of the zip. -/
theorem zip_drop (c : List α) (d : List β) (n : Nat) :
    (c.drop n).zip (d.drop n) = (c.zip d).drop n := by
  induction c generalizing d n with
  | nil => simp
  | cons a t ih =>
    cases d with
    | nil => simp
    | cons b u =>
      cases n with
      | zero => simp
      | succ n =>
        rw [List.drop_succ_cons, List.drop_succ_cons, List.zip_cons_cons,
          List.drop_succ_cons, ih u n]

/-- Reading a zip at a position pairs the reads of the two slices. -/
theorem zip_read_pair (u : List α) (v : List β) (n : Nat) :
    (u.zip v)[n]? = (u[n]?).bind (fun a => (v[n]?).map (fun b => (a, b))) := by
  induction u generalizing v n with
  | nil => simp
  | cons a t ih =>
    cases v with
    | nil => simp
    | cons b w =>
      cases n with
      | zero => simp [List.zip_cons_cons]
      | succ n =>
        rw [List.zip_cons_cons, List.getElem?_cons_succ,
          List.getElem?_cons_succ, List.getElem?_cons_succ, ih w n]

/-- Zipping the reversals of two same-length slices reverses the zip. -/
theorem zip_reverse_eq (c : List α) (d : List β)
    (hlen : d.length = c.length) :
    (c.reverse).zip (d.reverse) = (c.zip d).reverse := by
  have hz : (c.zip d).length = c.length := by
    rw [List.length_zip, hlen, Nat.min_self]
  apply List.ext_getElem?
  intro n
  by_cases hn : n < c.length
  · rw [zip_read_pair,
      List.getElem?_reverse (by omega),
      List.getElem?_reverse (by omega),
      List.getElem?_reverse (by omega),
      zip_read_pair, hz, hlen]
  · rw [zip_read_pair,
      List.getElem?_eq_none (l := c.reverse)
        (by rw [List.length_reverse]; omega),
      List.getElem?_eq_none (l := (c.zip d).reverse)
        (by rw [List.length_reverse, hz]; omega)]
    rfl

/-- The zip of the whole group has the card slice length when the
invariant holds. -/
theorem zip_length_eq (g : group) (hinv : ginv g) :
    (g.cards.zip g.flipd).length = g.cards.length := by
  rw [List.length_zip, hinv, Nat.min_self]

/-- flip over a valid range reverses the zipped pairs of the range while
negating each direction bit, keeping every pair outside the range. -/
theorem flip_zip (g : group) (i j : Nat) (hinv : ginv g) (hij : i ≤ j)
    (hj : j ≤ g.cards.length) :
    (g.flip i j).cards.zip (g.flip i j).flipd
      = (g.cards.zip g.flipd).take i
        ++ ((((g.cards.zip g.flipd).drop i).take (j - i)).map
            (fun pr => (pr.1, !pr.2))).reverse
        ++ (g.cards.zip g.flipd).drop j := by
  have hjf : j ≤ g.flipd.length := by rw [hinv]; exact hj
  rw [flip_cards_eq g i j hij hj, flip_flipd_eq g i j hinv hij hj]
  rw [List.zip_append (by
    rw [List.length_append, List.length_append, List.length_take,
      List.length_take, List.length_reverse, List.length_reverse,
      List.length_map, List.length_take, List.length_take,
      List.length_drop, List.length_drop, hinv])]
  rw [List.zip_append (by
    rw [List.length_take, List.length_take, hinv])]
  rw [zip_take, zip_reverse_eq _ _ (by
    rw [List.length_map, List.length_take, List.length_take,
      List.length_drop, List.length_drop, hinv])]
  rw [List.zip_map_right, zip_take, zip_drop, zip_drop]
  have hfun : (Prod.map id (fun b : Bool => !b))
      = (fun pr : Card × Bool => (pr.1, !pr.2)) := by
    funext pr
    cases pr
    rfl
  rw [hfun]

/-- The drawn group of drawAt zips to the selected range of the zip:
each drawn card keeps its direction bit. -/
theorem drawAt_zip_fst (g : group) (i j : Nat) :
    (g.drawAt i j).1.cards.zip (g.drawAt i j).1.flipd
      = ((g.cards.zip g.flipd).drop i).take (j - i) := by
  rw [drawAt_fst_cards, drawAt_fst_flipd, zip_take, zip_drop]

/-- The remaining group of drawAt zips to the prefix plus suffix of the
zip: each remaining card keeps its direction bit. -/
theorem drawAt_zip_snd (g : group) (i j : Nat) (hinv : ginv g)
    (hij : i ≤ j) (hj : j ≤ g.cards.length) :
    (g.drawAt i j).2.cards.zip (g.drawAt i j).2.flipd
      = (g.cards.zip g.flipd).take i ++ (g.cards.zip g.flipd).drop j := by
  rw [drawAt_snd_cards g i j hij hj, drawAt_snd_flipd g i j hinv hij hj,
    List.zip_append (by rw [List.length_take, List.length_take, hinv]),
    zip_take, zip_drop]

/-- Insert appends the zipped pairs: every inserted card arrives with its
direction bit. -/
theorem Insert_zip (g h : group) (hinv : ginv g) :
    (g.Insert h).cards.zip (g.Insert h).flipd
      = g.cards.zip g.flipd ++ h.cards.zip h.flipd := by
  rw [Insert_cards, Insert_flipd, List.zip_append hinv.symm]

/-- InsertBottom prepends the zipped pairs. -/
theorem InsertBottom_zip (g h : group) (hinvh : ginv h) :
    (g.InsertBottom h).cards.zip (g.InsertBottom h).flipd
      = h.cards.zip h.flipd ++ g.cards.zip g.flipd := by
  rw [InsertBottom_cards, InsertBottom_flipd, List.zip_append hinvh.symm]

/-- The clamped splice position used by InsertAt after normalization. -/
def insertIndex (g : group) (i : Int) : Nat :=
  (if g.index i < 0 then 0
   else if (g.cards.length : Int) < g.index i then (g.cards.length : Int)
   else g.index i).toNat

/-- The card slice of InsertAt as a splice at the clamped position. -/
theorem InsertAt_cards (g : group) (i : Int) (ng : group) :
    (g.InsertAt i ng).cards
      = g.cards.take (insertIndex g i) ++ ng.cards
        ++ g.cards.drop (insertIndex g i) := by
  show g.cards.take (insertIndex g i) ++ ng.Cards
      ++ g.cards.drop (insertIndex g i) = _
  rw [Cards_eq]

/-- The direction slice of InsertAt as a splice at the clamped position. -/
theorem InsertAt_flipd (g : group) (i : Int) (ng : group) :
    (g.InsertAt i ng).flipd
      = g.flipd.take (insertIndex g i) ++ ng.flipd
        ++ g.flipd.drop (insertIndex g i) := by
  show g.flipd.take (insertIndex g i) ++ ng.FlippedArray
      ++ g.flipd.drop (insertIndex g i) = _
  rw [FlippedArray_eq]

/-- InsertAt splices the zipped pairs at the clamped position: the spliced
cards arrive with their direction bits and the shifted cards keep
theirs. -/
theorem InsertAt_zip (g : group) (i : Int) (h : group) (hinv : ginv g)
    (hinvh : ginv h) :
    (g.InsertAt i h).cards.zip (g.InsertAt i h).flipd
      = (g.cards.zip g.flipd).take (insertIndex g i)
        ++ h.cards.zip h.flipd
        ++ (g.cards.zip g.flipd).drop (insertIndex g i) := by
  rw [InsertAt_cards, InsertAt_flipd]
  rw [List.zip_append (by
    rw [List.length_append, List.length_append, List.length_take,
      List.length_take, hinv, hinvh])]
  rw [List.zip_append (by rw [List.length_take, List.length_take, hinv])]
  rw [zip_take, zip_drop]

/-- C4: every Group operation keeps the card and direction slices the same
length, and every operation that moves cards moves each position's
direction bit together with its card: the zip of the two slices undergoes
the corresponding transform for Swap, Flip, Draw, DrawBottom, DrawAt,
Insert, InsertBottom and InsertAt. -/
theorem C4_parallel_invariant (g h : group) (hinv : ginv g)
    (hinvh : ginv h) :
    (∀ i j : Int, ginv (g.Swap i j))
    ∧ (∀ i j : Int, ginv (g.Flip i j))
    ∧ (∀ b : Bool, ginv (g.FlipEach b))
    ∧ (∀ n : Int, ginv (g.Draw n).1 ∧ ginv (g.Draw n).2)
    ∧ (∀ n : Int, ginv (g.DrawBottom n).1 ∧ ginv (g.DrawBottom n).2)
    ∧ (∀ i j : Int, ginv (g.DrawAt i j).1 ∧ ginv (g.DrawAt i j).2)
    ∧ ginv (g.Insert h)
    ∧ ginv (g.InsertBottom h)
    ∧ (∀ i : Int, ginv (g.InsertAt i h))
    ∧ (∀ p q : Nat, p < g.cards.length → q < g.cards.length →
        ((g.Swap (p : Int) (q : Int)).cards).zip
            ((g.Swap (p : Int) (q : Int)).flipd)
          = listSwap (g.cards.zip g.flipd) p q)
    ∧ (∀ i j : Int, 0 ≤ g.index i → g.index i ≤ g.index j →
        g.index j ≤ (g.cards.length : Int) →
        (g.Flip i j).cards.zip (g.Flip i j).flipd
          = (g.cards.zip g.flipd).take (g.index i).toNat
            ++ ((((g.cards.zip g.flipd).drop (g.index i).toNat).take
                ((g.index j).toNat - (g.index i).toNat)).map
                (fun pr => (pr.1, !pr.2))).reverse
            ++ (g.cards.zip g.flipd).drop (g.index j).toNat)
    ∧ (∀ n : Int,
        (g.Draw n).1.cards.zip (g.Draw n).1.flipd
            = (g.cards.zip g.flipd).drop
              (g.cards.length - clampCount n g.cards.length)
          ∧ (g.Draw n).2.cards.zip (g.Draw n).2.flipd
            = (g.cards.zip g.flipd).take
              (g.cards.length - clampCount n g.cards.length))
    ∧ (∀ n : Int,
        (g.DrawBottom n).1.cards.zip (g.DrawBottom n).1.flipd
            = (g.cards.zip g.flipd).take (clampCount n g.cards.length)
          ∧ (g.DrawBottom n).2.cards.zip (g.DrawBottom n).2.flipd
            = (g.cards.zip g.flipd).drop (clampCount n g.cards.length))
    ∧ (∀ i j : Int, 0 ≤ g.index i → g.index i ≤ g.index j →
        g.index j ≤ (g.cards.length : Int) →
        (g.DrawAt i j).1.cards.zip (g.DrawAt i j).1.flipd
            = ((g.cards.zip g.flipd).drop (g.index i).toNat).take
              ((g.index j).toNat - (g.index i).toNat)
          ∧ (g.DrawAt i j).2.cards.zip (g.DrawAt i j).2.flipd
            = (g.cards.zip g.flipd).take (g.index i).toNat
              ++ (g.cards.zip g.flipd).drop (g.index j).toNat)
    ∧ (g.Insert h).cards.zip (g.Insert h).flipd
        = g.cards.zip g.flipd ++ h.cards.zip h.flipd
    ∧ (g.InsertBottom h).cards.zip (g.InsertBottom h).flipd
        = h.cards.zip h.flipd ++ g.cards.zip g.flipd
    ∧ (∀ i : Int,
        (g.InsertAt i h).cards.zip (g.InsertAt i h).flipd
          = (g.cards.zip g.flipd).take (insertIndex g i)
            ++ h.cards.zip h.flipd
            ++ (g.cards.zip g.flipd).drop (insertIndex g i)) := by
  have hflen : g.flipd.length = g.cards.length := hinv
  have hhlen : h.flipd.length = h.cards.length := hinvh
  have hZdrop : (g.cards.zip g.flipd).drop g.cards.length = [] := by
    rw [← zip_length_eq g hinv, List.drop_length]
  refine ⟨fun i j => Swap_ginv g i j hinv,
    fun i j => by rw [Flip_eq]; exact flip_ginv g _ _ hinv,
    fun b => by
      show (g.flipd.map (fun _ => b)).length = g.cards.length
      rw [List.length_map]
      exact hinv,
    fun n => by
      rw [Draw_eq]
      exact ⟨drawAt_fst_ginv g _ _ hinv, drawAt_snd_ginv g _ _ hinv⟩,
    fun n => by
      rw [DrawBottom_eq]
      exact ⟨drawAt_fst_ginv g _ _ hinv, drawAt_snd_ginv g _ _ hinv⟩,
    fun i j => by
      rw [DrawAt_eq]
      exact ⟨drawAt_fst_ginv g _ _ hinv, drawAt_snd_ginv g _ _ hinv⟩,
    ?_, ?_, ?_,
    fun p q hp hq => Swap_zip g p q hinv hp hq,
    fun i j h0 hij hj => by
      rw [Flip_eq]
      exact flip_zip g _ _ hinv (by omega) (by omega),
    fun n => by
      have hmle : clampCount n g.cards.length ≤ g.cards.length :=
        clampCount_le ..
      constructor
      · rw [Draw_eq, drawAt_zip_fst,
          show g.cards.length
              - (g.cards.length - clampCount n g.cards.length)
            = clampCount n g.cards.length from by omega,
          List.take_of_length_le
            (by rw [List.length_drop, zip_length_eq g hinv]; omega)]
      · rw [Draw_eq, drawAt_zip_snd g _ _ hinv (by omega) le_rfl, hZdrop,
          List.append_nil],
    fun n => by
      have hmle : clampCount n g.cards.length ≤ g.cards.length :=
        clampCount_le ..
      constructor
      · rw [DrawBottom_eq, drawAt_zip_fst, List.drop_zero, Nat.sub_zero]
      · rw [DrawBottom_eq, drawAt_zip_snd g _ _ hinv (by omega) hmle,
          List.take_zero, List.nil_append],
    fun i j h0 hij hj => by
      rw [DrawAt_eq]
      exact ⟨drawAt_zip_fst g _ _,
        drawAt_zip_snd g _ _ hinv (by omega) (by omega)⟩,
    Insert_zip g h hinv,
    InsertBottom_zip g h hinvh,
    fun i => InsertAt_zip g i h hinv hinvh⟩
  · unfold ginv
    rw [Insert_cards, Insert_flipd, List.length_append, List.length_append]
    omega
  · unfold ginv
    rw [InsertBottom_cards, InsertBottom_flipd, List.length_append,
      List.length_append]
    omega
  · intro i
    unfold ginv group.InsertAt
    simp only [List.length_append, List.length_take, List.length_drop,
      Cards_eq, FlippedArray_eq]
    omega

/-- C4 witness: the invariant facts instantiated on concrete groups, for
Swap and for Insert. -/
theorem C4_parallel_invariant_witness :
    ginv ((NewGroup [NewCard 2 Spades, NewCard 3 Spades]).Swap 0 1)
    ∧ ginv ((NewGroup [NewCard 2 Spades, NewCard 3 Spades]).Insert
        (NewGroup [NewCard 4 Spades])) :=
  ⟨(C4_parallel_invariant (NewGroup [NewCard 2 Spades, NewCard 3 Spades])
      (NewGroup [NewCard 4 Spades]) (by decide) (by decide)).1 0 1,
   (C4_parallel_invariant (NewGroup [NewCard 2 Spades, NewCard 3 Spades])
      (NewGroup [NewCard 4 Spades]) (by decide)
      (by decide)).2.2.2.2.2.2.1⟩

/-- C9: the Fisher-Yates loop of PerfectShuffle, run with any sequence of
sampled indices each inside its required range [0, i], permutes the
(card, direction) pairs: the multiset of pairs is preserved exactly and
the length is unchanged. -/
theorem C9_perfect_shuffle (g : group) (f : Nat → Nat) (hinv : ginv g)
    (hf : ∀ i : Nat, 1 ≤ i → i ≤ g.Len - 1 → f i ≤ i) :
    ((PerfectShuffle f g).cards.zip (PerfectShuffle f g).flipd).Perm
        (g.cards.zip g.flipd)
    ∧ (↑((PerfectShuffle f g).cards.zip (PerfectShuffle f g).flipd)
          : Multiset (Card × Bool))
        = ↑(g.cards.zip g.flipd)
    ∧ (PerfectShuffle f g).Len = g.Len
    ∧ ginv (PerfectShuffle f g) := by
  have hk : g.Len - 1 < g.cards.length ∨ g.cards.length = 0 := by
    unfold group.Len
    omega
  have h := shuffleSwaps_perm f g (g.Len - 1) hinv hk hf
  exact ⟨h.1, Multiset.coe_eq_coe.mpr h.1, h.2.1, h.2.2⟩

/-- C9 witness: shuffling the concrete three-card group with the sample
sequence that always picks 0 yields a permutation of its pairs. -/
theorem C9_perfect_shuffle_witness :
    ((PerfectShuffle (fun _ => 0) (NewGroup [NewCard 2 Spades,
          NewCard 3 Spades, NewCard 4 Spades])).cards.zip
        (PerfectShuffle (fun _ => 0) (NewGroup [NewCard 2 Spades,
          NewCard 3 Spades, NewCard 4 Spades])).flipd).Perm
      ((NewGroup [NewCard 2 Spades, NewCard 3 Spades,
        NewCard 4 Spades]).cards.zip
        (NewGroup [NewCard 2 Spades, NewCard 3 Spades,
          NewCard 4 Spades]).flipd) :=
  (C9_perfect_shuffle (NewGroup [NewCard 2 Spades, NewCard 3 Spades,
      NewCard 4 Spades]) (fun _ => 0) (by decide)
    (fun i h1 h2 => Nat.zero_le i)).1
